import Mathlib

/-!
Verification of the cdr-rs CDR (Common Data Representation) codec.

This file shallowly embeds the serializer (`src/ser.rs`), the size checker
(`src/size.rs`), the deserializer (`src/de.rs`), the encapsulation
descriptors (`src/encapsulation.rs`) and the error taxonomy
(`src/error.rs`) of the repository, and proves or refutes the frozen
claims about them.  Machine integers are modelled as `Nat`/`Int` with
explicit `% 2^w` arithmetic; byte streams are `List Nat` with every
entry below 256; fallible operations return `Except ErrorKind`.
-/

namespace Cdr

/-- Byte order carried by an encapsulation policy (`byteorder::BigEndian` /
`LittleEndian` as selected by `C::E` in `src/encapsulation.rs`). -/
inductive Endian where
  | be
  | le
deriving DecidableEq, Repr

/-- The four encapsulation dialects of `src/encapsulation.rs`. -/
inductive Dialect where
  | cdrBe
  | cdrLe
  | plCdrBe
  | plCdrLe
deriving DecidableEq, Repr

/-- `Encapsulation::ID[1]`: 0, 1, 2, 3 (ID[0] is always 0). -/
def Dialect.id : Dialect → Nat
  | .cdrBe => 0
  | .cdrLe => 1
  | .plCdrBe => 2
  | .plCdrLe => 3

/-- `Encapsulation::E`: the byte order of each dialect. -/
def Dialect.endian : Dialect → Endian
  | .cdrBe => .be
  | .cdrLe => .le
  | .plCdrBe => .be
  | .plCdrLe => .le

/-- `ErrorKind` from `src/error.rs`.  Payloads irrelevant to control flow
(`io::Error`, `Utf8Error`, the offending `char`) are dropped; `Io` is named
`ioError` here. -/
inductive ErrorKind where
  | message (s : String)
  | ioError
  | deserializeAnyNotSupported
  | invalidBoolEncoding (b : Nat)
  | invalidChar
  | invalidCharEncoding
  | invalidEncapsulation
  | invalidUtf8Encoding
  | numberOutOfRange
  | sequenceMustHaveLength
  | sizeLimit
  | typeNotSupported
deriving DecidableEq, Repr

/-- Computation rule for `Except` bind on a success. -/
@[simp]
theorem okBind {ε α β : Type} (a : α) (f : α → Except ε β) :
    (Except.ok a : Except ε α) >>= f = f a := rfl

/-- Computation rule for `Except` bind on an error. -/
@[simp]
theorem errorBind {ε α β : Type} (e : ε) (f : α → Except ε β) :
    (Except.error e : Except ε α) >>= f = .error e := rfl

/-- Computation rule for `Except.map` on a success. -/
@[simp]
theorem mapOk {ε α β : Type} (a : α) (f : α → β) :
    (Except.ok a : Except ε α).map f = .ok (f a) := rfl

/-- Computation rule for `Except.map` on an error. -/
@[simp]
theorem mapError {ε α β : Type} (e : ε) (f : α → β) :
    (Except.error e : Except ε α).map f = .error e := rfl

/-- Primitive widths used by the codec: 1, 2, 4 and 8 bytes. -/
inductive W where
  | w1
  | w2
  | w4
  | w8
deriving DecidableEq, Repr

/-- `std::mem::size_of::<T>()` for the primitive of width `w`. -/
def W.size : W → Nat
  | .w1 => 1
  | .w2 => 2
  | .w4 => 4
  | .w8 => 8

/-- Little-endian byte decomposition of `n` into `w` bytes (as
`byteorder::LittleEndian` writes it, truncating to `w` bytes). -/
def toBytesLE : Nat → Nat → List Nat
  | 0, _ => []
  | w + 1, n => n % 256 :: toBytesLE w (n / 256)

/-- Little-endian recomposition of a byte list (as `byteorder::LittleEndian`
reads it). -/
def fromBytesLE : List Nat → Nat
  | [] => 0
  | b :: bs => b + 256 * fromBytesLE bs

/-- The `w` bytes of `n` in byte order `e`. -/
def uintToBytes (e : Endian) (w n : Nat) : List Nat :=
  match e with
  | .le => toBytesLE w n
  | .be => (toBytesLE w n).reverse

/-- Recomposition of a byte list in byte order `e`. -/
def uintFromBytes (e : Endian) (bs : List Nat) : Nat :=
  match e with
  | .le => fromBytesLE bs
  | .be => fromBytesLE bs.reverse

/-- Two's-complement representation of the signed value `i` in `8*w.size`
bits, as `byteorder` writes `i16`/`i32`/`i64` (and `write_i8`). -/
def toTwos (w : W) (i : Int) : Nat :=
  (i % (2 ^ (8 * w.size))).toNat

/-- Signed reinterpretation of the `8*w.size`-bit pattern `n`, as
`byteorder` reads `i16`/`i32`/`i64` (and `read_i8`). -/
def fromTwos (w : W) (n : Nat) : Int :=
  if n < 2 ^ (8 * w.size - 1) then (n : Int) else (n : Int) - 2 ^ (8 * w.size)

/-- Size-limit state: the three `SizeLimit` implementations of
`src/size.rs` (`Infinite`, `Bounded`, and the internal `Counter` with
`limit: None` used by `calc_serialized_data_size`). -/
inductive SL where
  | infinite
  | bounded (r : Nat)
  | counting (total : Nat)
deriving DecidableEq, Repr

/-- `SizeLimit::add` for each implementation (`src/size.rs`): `Infinite`
always succeeds; `Bounded(r)` succeeds iff `r >= n` and decrements;
`Counter` with no limit accumulates and never fails. -/
def SL.add : SL → Nat → Except ErrorKind SL
  | .infinite, _ => .ok .infinite
  | .bounded r, n => if r ≥ n then .ok (.bounded (r - n)) else .error .sizeLimit
  | .counting t, n => .ok (.counting (t + n))

/-- Values of the supported data model: the shapes the serde-driven codec
handles (floats and chars are omitted from the embedded family; options
are included because `src/ser.rs` / `src/size.rs` treat them specially). -/
inductive Value where
  | vBool (b : Bool)
  | vU (w : W) (n : Nat)
  | vI (w : W) (i : Int)
  | vStr (bs : List Nat)
  | vBytes (bs : List Nat)
  | vSeq (elems : List Value)
  | vTuple (fields : List Value)
  | vEnum (idx : Nat) (fields : List Value)
  | vNone
  | vSome (v : Value)
deriving Repr

/-- Type shapes mirroring the serde-visitor protocol the codec consumes:
the decoder is driven by the target type. -/
inductive Ty where
  | tBool
  | tU (w : W)
  | tI (w : W)
  | tStr
  | tBytes
  | tSeq (t : Ty)
  | tTuple (ts : List Ty)
  | tEnum (variants : List (List Ty))
deriving Repr

/-! ## Serializer (`src/ser.rs`)

`Serializer { writer, pos }` has no size-limit field; its writer only ever
appends, so a serialization step is modelled as a function from the cursor
`pos` to the emitted bytes and the new cursor. -/

/-- `Serializer::write_padding_of::<T>` (`src/ser.rs` lines 46-61): first
`pos %= 8`, then if `pos % alignment` is a nonzero `n`, emit
`alignment - n` zero bytes and advance `pos` by that amount. -/
def writePaddingOf (alignment pos : Nat) : List Nat × Nat :=
  let p := pos % 8
  let n := p % alignment
  if n = 0 then ([], p) else (List.replicate (alignment - n) 0, p + (alignment - n))

/-- One aligned primitive write of `w.size` bytes (`set_pos_of::<T>`
followed by the `byteorder` write): padding, then the value's bytes in
byte order `e`. -/
def serUInt (e : Endian) (w : W) (n pos : Nat) : List Nat × Nat :=
  let (pad, p) := writePaddingOf w.size pos
  (pad ++ uintToBytes e w.size n, p + w.size)

/-- `Serializer::write_usize_as_u32` (`src/ser.rs` lines 63-69): lengths
above `u32::MAX` fail with `NumberOutOfRange`, otherwise the length is
written as an aligned `u32`. -/
def writeUsizeAsU32 (e : Endian) (v pos : Nat) : Except ErrorKind (List Nat × Nat) :=
  if v > 2 ^ 32 - 1 then .error .numberOutOfRange else .ok (serUInt e .w4 v pos)

mutual

/-- The `ser::Serializer` impl for `Serializer` (`src/ser.rs`): emitted
bytes and new cursor for one value.  `bool` writes `1`/`0` as one byte;
integers write padded fixed-width patterns (signed ones in two's
complement); `serialize_str`/`serialize_bytes` write the `u32` byte length
followed by the raw bytes (no NUL terminator); sequences write their `u32`
length then the elements; tuples/structs concatenate their fields; enum
variants write the `u32` variant index then the payload fields;
`serialize_none`/`serialize_some` fail with `TypeNotSupported`. -/
def serValue (e : Endian) : Value → Nat → Except ErrorKind (List Nat × Nat)
  | .vBool b, pos => .ok (serUInt e .w1 (if b then 1 else 0) pos)
  | .vU w n, pos => .ok (serUInt e w n pos)
  | .vI w i, pos => .ok (serUInt e w (toTwos w i) pos)
  | .vStr bs, pos => do
      let (lb, p1) ← writeUsizeAsU32 e bs.length pos
      .ok (lb ++ bs, p1 + bs.length)
  | .vBytes bs, pos => do
      let (lb, p1) ← writeUsizeAsU32 e bs.length pos
      .ok (lb ++ bs, p1 + bs.length)
  | .vSeq es, pos => do
      let (lb, p1) ← writeUsizeAsU32 e es.length pos
      let (body, p2) ← serList e es p1
      .ok (lb ++ body, p2)
  | .vTuple fs, pos => serList e fs pos
  | .vEnum idx fs, pos => do
      let (ib, p1) := serUInt e .w4 idx pos
      let (body, p2) ← serList e fs p1
      .ok (ib ++ body, p2)
  | .vNone, _ => .error .typeNotSupported
  | .vSome _, _ => .error .typeNotSupported

/-- Serialization of consecutive values (sequence elements, tuple or
struct fields, variant payloads). -/
def serList (e : Endian) : List Value → Nat → Except ErrorKind (List Nat × Nat)
  | [], pos => .ok ([], pos)
  | v :: vs, pos => do
      let (b1, p1) ← serValue e v pos
      let (b2, p2) ← serList e vs p1
      .ok (b1 ++ b2, p2)

end

/-! ## Size checker (`src/size.rs`)

`SizeChecker { counter, pos }` mirrors the serializer without emitting
bytes.  `calc_serialized_data_size` swallows a failure with `.ok()` and
still returns the counter's running total, so the checker is modelled
with a state that survives errors: each step returns the state reached
together with an optional error. -/

/-- `SizeChecker` state: `pos` plus its `SizeLimit` counter. -/
structure SzState where
  pos : Nat
  sl : SL
deriving DecidableEq, Repr

/-- `SizeChecker::add_size`: `pos += size` happens before the counter is
consulted, and `Bounded::add` leaves the counter unchanged on failure. -/
def szAddSize (n : Nat) (s : SzState) : SzState × Option ErrorKind :=
  match s.sl.add n with
  | .ok sl' => (⟨s.pos + n, sl'⟩, none)
  | .error e => (⟨s.pos + n, s.sl⟩, some e)

/-- Sequencing of size-checker steps: an error aborts the remaining steps
(the `?` operator) but keeps the state reached so far. -/
def szSeq (r : SzState × Option ErrorKind) (f : SzState → SzState × Option ErrorKind) :
    SzState × Option ErrorKind :=
  match r with
  | (s, none) => f s
  | (s, some e) => (s, some e)

/-- The `add_padding_of!` macro (`src/size.rs` lines 89-104): the checker
masks `pos & (ALIGNMENT - 1)` — written here as `pos % alignment`, which
is identical for the power-of-two alignments 1, 2, 4, 8 the macro is
instantiated at — and adds the missing padding bytes (no `pos %= 8`). -/
def szPad (alignment : Nat) (s : SzState) : SzState × Option ErrorKind :=
  let n := s.pos % alignment
  if n = 0 then (s, none) else szAddSize (alignment - n) s

/-- The `add_value!` macro: padding for the primitive's alignment, then
its `size_of` bytes. -/
def szUInt (alignment : Nat) (s : SzState) : SzState × Option ErrorKind :=
  szSeq (szPad alignment s) (szAddSize alignment)

/-- `SizeChecker::add_usize_as_u32` (`src/size.rs` lines 119-125). -/
def szUsizeAsU32 (v : Nat) (s : SzState) : SzState × Option ErrorKind :=
  if v > 2 ^ 32 - 1 then (s, some .numberOutOfRange) else szUInt 4 s

mutual

/-- The `ser::Serializer` impl for `SizeChecker` (`src/size.rs`):
primitives count padding plus width; `serialize_str` counts the `u32`
length, the content bytes **plus one NUL terminator**; `serialize_bytes`
counts length plus content (no terminator); sequences check the `u32`
range of the length; `serialize_none` counts nothing and succeeds;
`serialize_some` counts one `u8` then the payload. -/
def szValue : Value → SzState → SzState × Option ErrorKind
  | .vBool _, s => szUInt 1 s
  | .vU w _, s => szUInt w.size s
  | .vI w _, s => szUInt w.size s
  | .vStr bs, s => szSeq (szUInt 4 s) (szAddSize (bs.length + 1))
  | .vBytes bs, s => szSeq (szUInt 4 s) (szAddSize bs.length)
  | .vSeq es, s => szSeq (szUsizeAsU32 es.length s) (szList es)
  | .vTuple fs, s => szList fs s
  | .vEnum _ fs, s => szSeq (szUInt 4 s) (szList fs)
  | .vNone, s => (s, none)
  | .vSome v, s => szSeq (szUInt 1 s) (szValue v)

/-- Size accounting of consecutive values. -/
def szList : List Value → SzState → SzState × Option ErrorKind
  | [], s => (s, none)
  | v :: vs, s => szSeq (szValue v s) (szList vs)

end

/-- The running total of a `Counter` (`calc_serialized_data_size` reads
`checker.counter.total`). -/
def SL.total : SL → Nat
  | .counting t => t
  | _ => 0

/-- The remaining budget of a `Bounded`. -/
def SL.remaining : SL → Nat
  | .bounded r => r
  | _ => 0

/-- `calc_serialized_data_size` (`src/size.rs` lines 467-481): runs the
checker with an unlimited `Counter`, swallows any error with `.ok()`, and
returns the total — it never fails. -/
def calcSerializedDataSize (v : Value) : Nat :=
  (szValue v ⟨0, .counting 0⟩).1.sl.total

/-- `calc_serialized_data_size_bounded` (`src/size.rs` lines 485-498):
runs the checker against `Bounded(max)` and returns `max - remaining` on
success. -/
def calcSerializedDataSizeBounded (v : Value) (max : Nat) : Except ErrorKind Nat :=
  match szValue v ⟨0, .bounded max⟩ with
  | (s, none) => .ok (max - s.sl.remaining)
  | (_, some e) => .error e

/-! ## Deserializer (`src/de.rs`)

`Deserializer { reader, size_limit, pos }`: the reader is modelled as the
list of bytes not yet consumed. -/

/-- Deserializer state: remaining input, cursor, and size-limit state. -/
structure DState where
  input : List Nat
  pos : Nat
  sl : SL
deriving DecidableEq, Repr

/-- `Deserializer::read_size` (`src/de.rs` lines 57-60): `pos += size`,
then `size_limit.add(size)`. -/
def readSize (n : Nat) (s : DState) : Except ErrorKind DState :=
  match s.sl.add n with
  | .ok sl' => .ok ⟨s.input, s.pos + n, sl'⟩
  | .error e => .error e

/-- `reader.read_exact` on an `n`-byte buffer: consume `n` bytes or fail
with the propagated I/O error. -/
def readExact (n : Nat) (s : DState) : Except ErrorKind (List Nat × DState) :=
  if n ≤ s.input.length then .ok (s.input.take n, ⟨s.input.drop n, s.pos, s.sl⟩)
  else .error .ioError

/-- `Deserializer::read_padding_of::<T>` (`src/de.rs` lines 38-55): first
`pos %= 8`; if `pos % alignment` is a nonzero `n`, charge and consume
`alignment - n` padding bytes (budget first, then the read). -/
def readPaddingOf (alignment : Nat) (s : DState) : Except ErrorKind DState :=
  let p := s.pos % 8
  let s0 : DState := ⟨s.input, p, s.sl⟩
  let n := p % alignment
  if n = 0 then .ok s0
  else do
    let s1 ← readSize (alignment - n) s0
    let (_, s2) ← readExact (alignment - n) s1
    .ok s2

/-- `deserialize_u8` / `deserialize_i8` reads (`src/de.rs`): no padding,
`read_size_of::<u8>()` then one byte. -/
def readU8 (s : DState) : Except ErrorKind (Nat × DState) := do
  let s1 ← readSize 1 s
  let (bs, s2) ← readExact 1 s1
  .ok (fromBytesLE bs, s2)

/-- A padded multi-byte primitive read (`deserialize_u16` … `deserialize_i64`):
`read_padding_of`, `read_size_of`, then the `byteorder` read. -/
def readUInt (e : Endian) (alignment : Nat) (s : DState) : Except ErrorKind (Nat × DState) := do
  let s1 ← readPaddingOf alignment s
  let s2 ← readSize alignment s1
  let (bs, s3) ← readExact alignment s2
  .ok (uintFromBytes e bs, s3)

/-- The chunked loop of `Deserializer::read_vec` (`src/de.rs` lines
72-93): while bytes remain, reserve `min len BLOCK_SIZE` (BLOCK_SIZE =
65536), charge the budget, then read that many bytes. -/
def readChunks : Nat → DState → Except ErrorKind (List Nat × DState)
  | 0, s => .ok ([], s)
  | len + 1, s => do
      let reserve := min (len + 1) 65536
      let s1 ← readSize reserve s
      let (chunk, s2) ← readExact reserve s1
      let (rest, s3) ← readChunks (len + 1 - reserve) s2
      .ok (chunk ++ rest, s3)
termination_by len => len
decreasing_by omega

/-- `Deserializer::read_vec`: a `u32` length (read as a full padded
primitive) followed by that many raw bytes. -/
def readVec (e : Endian) (s : DState) : Except ErrorKind (List Nat × DState) := do
  let (len, s1) ← readUInt e 4 s
  readChunks len s1

/-- Validity of a byte list as UTF-8, as `String::from_utf8` checks it
(RFC 3629: lead-byte ranges with their continuation constraints,
overlongs and surrogates rejected). -/
def validUtf8 : List Nat → Bool
  | [] => true
  | b :: rest =>
    if b < 0x80 then validUtf8 rest
    else if b < 0xC2 then false
    else if b ≤ 0xDF then
      match rest with
      | c1 :: r => 0x80 ≤ c1 && c1 ≤ 0xBF && validUtf8 r
      | _ => false
    else if b ≤ 0xEF then
      match rest with
      | c1 :: c2 :: r =>
        (if b = 0xE0 then 0xA0 ≤ c1 && c1 ≤ 0xBF
         else if b = 0xED then 0x80 ≤ c1 && c1 ≤ 0x9F
         else 0x80 ≤ c1 && c1 ≤ 0xBF) &&
        (0x80 ≤ c2 && c2 ≤ 0xBF) && validUtf8 r
      | _ => false
    else if b ≤ 0xF4 then
      match rest with
      | c1 :: c2 :: c3 :: r =>
        (if b = 0xF0 then 0x90 ≤ c1 && c1 ≤ 0xBF
         else if b = 0xF4 then 0x80 ≤ c1 && c1 ≤ 0x8F
         else 0x80 ≤ c1 && c1 ≤ 0xBF) &&
        (0x80 ≤ c2 && c2 ≤ 0xBF) && (0x80 ≤ c3 && c3 ≤ 0xBF) && validUtf8 r
      | _ => false
    else false

/-- `Deserializer::read_string` (`src/de.rs` lines 66-70): `read_vec`
then `String::from_utf8`, mapping a UTF-8 failure to the (typo'd) message
error; a Rust `String` is modelled by its UTF-8 bytes, so success returns
the bytes unchanged — no NUL is stripped. -/
def readString (e : Endian) (s : DState) : Except ErrorKind (List Nat × DState) := do
  let (bs, s1) ← readVec e s
  if validUtf8 bs then .ok (bs, s1)
  else .error (.message "error while decodint utf8 string")

/-- The element loop of `deserialize_seq_fixed_size` / `deserialize_tuple`
(`SeqVisitor` with a countdown): decode `n` values with `f`. -/
def deLoop (f : DState → Except ErrorKind (Value × DState)) :
    Nat → DState → Except ErrorKind (List Value × DState)
  | 0, s => .ok ([], s)
  | n + 1, s => do
      let (v, s1) ← f s
      let (vs, s2) ← deLoop f n s1
      .ok (v :: vs, s2)

mutual

/-- The `de::Deserializer` impl for `Deserializer` (`src/de.rs`), driven
by the target type.  `bool` reads one byte accepting only 1/0 (any other
byte fails with the `Message` error the source raises); integers are
padded fixed-width reads; strings are `read_string`; bytes are
`read_vec`; sequences read a `u32` length then that many elements;
tuples/structs read their fields in order; enums read a `u32`
discriminant then the matching variant's payload. -/
def deValue (e : Endian) : Ty → DState → Except ErrorKind (Value × DState)
  | .tBool, s => do
      let (b, s1) ← readU8 s
      if b = 1 then .ok (.vBool true, s1)
      else if b = 0 then .ok (.vBool false, s1)
      else .error (.message "invalid u8 when decoding bool")
  | .tU .w1, s => do
      let (n, s1) ← readU8 s
      .ok (.vU .w1 n, s1)
  | .tU w, s => do
      let (n, s1) ← readUInt e w.size s
      .ok (.vU w n, s1)
  | .tI .w1, s => do
      let (n, s1) ← readU8 s
      .ok (.vI .w1 (fromTwos .w1 n), s1)
  | .tI w, s => do
      let (n, s1) ← readUInt e w.size s
      .ok (.vI w (fromTwos w n), s1)
  | .tStr, s => do
      let (bs, s1) ← readString e s
      .ok (.vStr bs, s1)
  | .tBytes, s => do
      let (bs, s1) ← readVec e s
      .ok (.vBytes bs, s1)
  | .tSeq t, s => do
      let (len, s1) ← readUInt e 4 s
      let (vs, s2) ← deLoop (fun st => deValue e t st) len s1
      .ok (.vSeq vs, s2)
  | .tTuple ts, s => do
      let (vs, s1) ← deFields e ts s
      .ok (.vTuple vs, s1)
  | .tEnum vs, s => do
      let (idx, s1) ← readUInt e 4 s
      deVariant e vs idx idx s1

/-- Field-by-field decoding of a tuple/struct shape. -/
def deFields (e : Endian) : List Ty → DState → Except ErrorKind (List Value × DState)
  | [], s => .ok ([], s)
  | t :: ts, s => do
      let (v, s1) ← deValue e t s
      let (vs, s2) ← deFields e ts s1
      .ok (v :: vs, s2)

/-- Variant selection by discriminant (serde's generated
`visit_variant_seed`): walk the variant list down to index `rem`; an
out-of-range discriminant is reported by the derived visitor. -/
def deVariant (e : Endian) : List (List Ty) → Nat → Nat → DState →
    Except ErrorKind (Value × DState)
  | [], _, _, _ => .error (.message "invalid variant index")
  | v0 :: _, idx, 0, s => do
      let (fs, s1) ← deFields e v0 s
      .ok (.vEnum idx fs, s1)
  | _ :: rest, idx, rem + 1, s => deVariant e rest idx rem s

end

/-! ## Entry points (`src/ser.rs` / `src/de.rs`) -/

/-- The body of `serialize_into` after any pre-flight check: serialize
`C::ID` and `C::OPTION` (four `u8` writes producing `[0, id, 0, 0]` and
leaving `pos = 4`), `reset_pos` to 0, then serialize the value. -/
def serializeBody (d : Dialect) (v : Value) : Except ErrorKind (List Nat) := do
  let (body, _) ← serValue d.endian v 0
  .ok ([0, d.id, 0, 0] ++ body)

/-- `serialize` (`src/ser.rs` lines 450-468) with an `Infinite` limit: the
pre-flight size is used only to pre-allocate the output vector, so the
produced bytes are those of `serialize_into` with `Infinite`. -/
def serialize (d : Dialect) (v : Value) : Except ErrorKind (List Nat) :=
  serializeBody d v

/-- Modelled from the spec: `calc_serialized_size_bounded`, called by
`serialize_into` for its pre-flight check, is absent from `src/size.rs`
(which only has `calc_serialized_data_size_bounded`).  Per the spec,
`serialized_size_bounded(value, max)` runs the bounded size checker
**including the 4-byte envelope** in the total, fails with `SizeLimit` if
the encoding would exceed `max`, and otherwise returns the spare bytes
`max - used`. -/
def calcSerializedSizeBounded (v : Value) (max : Nat) : Except ErrorKind Nat := do
  let sl1 ← SL.add (.bounded max) 4
  match szValue v ⟨0, sl1⟩ with
  | (s, none) => .ok (max - s.sl.remaining)
  | (_, some e) => .error e

/-- `serialize_into` (`src/ser.rs` lines 470-489): when the limit is
bounded, pre-flight via the size checker (the `Serializer` itself carries
no size limit, so the streamed bytes never touch the budget); then write
envelope, reset, and the value. -/
def serializeInto (d : Dialect) (v : Value) (limit : SL) : Except ErrorKind (List Nat) :=
  match limit with
  | .bounded m => do
      let _ ← calcSerializedSizeBounded v m
      serializeBody d v
  | _ => serializeBody d v

/-- `deserialize_from` (`src/de.rs` lines 527-549): read 4 envelope bytes
(each a plain `u8` read that charges the budget), `reset_pos`, then
dispatch solely on byte 1 — bytes 0, 2 and 3 are not inspected — with any
byte-1 value above 3 failing with the `Message` error the source raises. -/
def deserializeFrom (t : Ty) (bytes : List Nat) (limit : SL) : Except ErrorKind Value := do
  let s0 : DState := ⟨bytes, 0, limit⟩
  let (_b0, s1) ← readU8 s0
  let (b1, s2) ← readU8 s1
  let (_b2, s3) ← readU8 s2
  let (_b3, s4) ← readU8 s3
  let s5 : DState := ⟨s4.input, 0, s4.sl⟩
  if b1 = 0 then (deValue .be t s5).map Prod.fst
  else if b1 = 1 then (deValue .le t s5).map Prod.fst
  else if b1 = 2 then (deValue .be t s5).map Prod.fst
  else if b1 = 3 then (deValue .le t s5).map Prod.fst
  else .error (.message "unknown encapsulation")

/-- `deserialize` (`src/de.rs` lines 520-525): `deserialize_from` over a
byte slice with an `Infinite` limit. -/
def deserialize (t : Ty) (bytes : List Nat) : Except ErrorKind Value :=
  deserializeFrom t bytes .infinite

/-- `decode ∘ encode`: serialize under dialect `d`, then deserialize the
produced buffer at type `t`. -/
def roundTrip (d : Dialect) (t : Ty) (v : Value) : Except ErrorKind Value := do
  let bytes ← serialize d v
  deserialize t bytes

/-! ## Well-formedness: the supported shapes

`typed v t` states that `v` is a value of shape `t` within the machine
bounds the codec assumes: integer values fit their width, lengths fit a
`u32`, strings are valid UTF-8, enum discriminants address an existing
variant.  Options and maps are not supported shapes. -/

mutual

/-- Typing of a value against a shape (the supported family of §3/§4.C of
the spec; options are excluded, matching "No support for
nullable/optional values"). -/
def typed : Value → Ty → Bool
  | .vBool _, .tBool => true
  | .vU w n, .tU w' => w = w' && decide (n < 2 ^ (8 * w.size))
  | .vI w i, .tI w' =>
      w = w' && decide (-(2 ^ (8 * w.size - 1) : Int) ≤ i) &&
        decide (i < (2 ^ (8 * w.size - 1) : Int))
  | .vStr bs, .tStr => decide (bs.length < 2 ^ 32) && validUtf8 bs
  | .vBytes bs, .tBytes => decide (bs.length < 2 ^ 32)
  | .vSeq es, .tSeq t => decide (es.length < 2 ^ 32) && typedSeq es t
  | .vTuple fs, .tTuple ts => typedFields fs ts
  | .vEnum idx fs, .tEnum vs =>
      decide (idx < vs.length) && decide (idx < 2 ^ 32) && typedFields fs (vs.getD idx [])
  | _, _ => false

/-- Every element has the sequence's element shape. -/
def typedSeq : List Value → Ty → Bool
  | [], _ => true
  | v :: vs, t => typed v t && typedSeq vs t

/-- Fields match the field shapes pointwise. -/
def typedFields : List Value → List Ty → Bool
  | [], [] => true
  | v :: vs, t :: ts => typed v t && typedFields vs ts
  | _, _ => false

end

/-! ## Byte-level lemmas -/

theorem length_toBytesLE (w n : Nat) : (toBytesLE w n).length = w := by
  induction w generalizing n with
  | zero => rfl
  | succ w ih => simp [toBytesLE, ih]

theorem fromBytesLE_toBytesLE (w n : Nat) (h : n < 256 ^ w) :
    fromBytesLE (toBytesLE w n) = n := by
  induction w generalizing n with
  | zero => simp [toBytesLE, fromBytesLE]; omega
  | succ w ih =>
      have hdiv : n / 256 < 256 ^ w := by
        rw [Nat.div_lt_iff_lt_mul (by norm_num)]
        calc n < 256 ^ (w + 1) := h
        _ = 256 ^ w * 256 := by ring
      simp [toBytesLE, fromBytesLE, ih _ hdiv]
      omega

theorem length_uintToBytes (e : Endian) (w n : Nat) : (uintToBytes e w n).length = w := by
  cases e <;> simp [uintToBytes, length_toBytesLE]

theorem uintFromBytes_uintToBytes (e : Endian) (w n : Nat) (h : n < 2 ^ (8 * w)) :
    uintFromBytes e (uintToBytes e w n) = n := by
  have h' : n < 256 ^ w := by
    have : (256 : Nat) ^ w = 2 ^ (8 * w) := by
      rw [show (256 : Nat) = 2 ^ 8 from rfl, ← Nat.pow_mul]
    omega
  cases e <;> simp [uintFromBytes, uintToBytes, fromBytesLE_toBytesLE _ _ h']

theorem toTwos_lt (w : W) (i : Int) : toTwos w i < 2 ^ (8 * w.size) := by
  cases w <;>
    · simp only [toTwos, W.size]
      omega

theorem fromTwos_toTwos (w : W) (i : Int)
    (h1 : -(2 ^ (8 * w.size - 1) : Int) ≤ i) (h2 : i < (2 ^ (8 * w.size - 1) : Int)) :
    fromTwos w (toTwos w i) = i := by
  cases w <;>
    · simp only [toTwos, fromTwos, W.size] at *
      norm_num at *
      omega

/-! ## Padding lemmas -/

/-- Characterization of `write_padding_of`: the cursor is truncated to
`pos % 8` and then advanced by the emitted padding bytes. -/
theorem writePaddingOf_eq (a pos : Nat) (ha : 0 < a) :
    writePaddingOf a pos =
      (List.replicate ((a - pos % 8 % a) % a) 0, pos % 8 + (a - pos % 8 % a) % a) := by
  unfold writePaddingOf
  rcases Nat.eq_zero_or_pos (pos % 8 % a) with h | h
  · simp [h, Nat.sub_zero, Nat.mod_self]
  · have hlt : pos % 8 % a < a := Nat.mod_lt _ ha
    have : (a - pos % 8 % a) % a = a - pos % 8 % a := Nat.mod_eq_of_lt (by omega)
    simp [Nat.pos_iff_ne_zero.mp h, this]

/-- Where the serializer and the deserializer meet on padding: reading
back the padding the serializer emitted (under an infinite budget, from a
cursor congruent mod 8) consumes exactly those bytes. -/
theorem readPaddingOf_writePaddingOf (a p q : Nat) (rest : List Nat) (ha : 0 < a)
    (hq : q % 8 = p % 8) :
    readPaddingOf a ⟨(writePaddingOf a p).1 ++ rest, q, .infinite⟩ =
      .ok ⟨rest, (writePaddingOf a p).2, .infinite⟩ := by
  rw [writePaddingOf_eq a p ha]
  unfold readPaddingOf
  rcases Nat.eq_zero_or_pos (p % 8 % a) with h | h
  · simp [hq, h, Nat.sub_zero, Nat.mod_self]
  · have hlt : p % 8 % a < a := Nat.mod_lt _ ha
    have hamt : (a - p % 8 % a) % a = a - p % 8 % a := Nat.mod_eq_of_lt (by omega)
    have hne : p % 8 % a ≠ 0 := Nat.pos_iff_ne_zero.mp h
    simp only [hq, hamt, hne, if_neg (by omega : ¬ p % 8 % a = 0)]
    simp [readSize, SL.add, readExact, hamt, List.take_append, List.drop_append,
      (by omega : a ≤ a - p % 8 % a + rest.length + p % 8 % a)]

/-- Reading back one aligned primitive the serializer emitted. -/
theorem readUInt_serUInt (e : Endian) (w : W) (n p q : Nat) (rest : List Nat)
    (hn : n < 2 ^ (8 * w.size)) (hq : q % 8 = p % 8) :
    readUInt e w.size ⟨(serUInt e w n p).1 ++ rest, q, .infinite⟩ =
      .ok (n, ⟨rest, (serUInt e w n p).2, .infinite⟩) := by
  have ha : 0 < w.size := by cases w <;> simp [W.size]
  unfold serUInt readUInt
  simp only [List.append_assoc]
  rw [readPaddingOf_writePaddingOf w.size p q (uintToBytes e w.size n ++ rest) ha hq]
  simp only [okBind, readSize, SL.add, readExact]
  have hlen : (uintToBytes e w.size n).length = w.size := length_uintToBytes e w.size n
  simp [hlen, List.take_append, List.drop_append, uintFromBytes_uintToBytes e w.size n hn]

/-- Under an infinite budget, the chunked `read_vec` loop returns exactly
the first `len` bytes of the input and advances the cursor by `len`. -/
theorem readChunks_infinite (len : Nat) (bs rest : List Nat) (q : Nat)
    (hlen : bs.length = len) :
    readChunks len ⟨bs ++ rest, q, .infinite⟩ = .ok (bs, ⟨rest, q + len, .infinite⟩) := by
  induction len using Nat.strong_induction_on generalizing bs q with
  | _ len ih =>
    match len, hlen with
    | 0, hlen =>
        have : bs = [] := List.eq_nil_of_length_eq_zero hlen
        subst this
        simp [readChunks]
    | n + 1, hlen =>
        rw [readChunks]
        have hr : min (n + 1) 65536 ≤ bs.length := by omega
        have htake : (bs.take (min (n + 1) 65536)).length = min (n + 1) 65536 := by
          simp [List.length_take]; omega
        have hsplit : bs = bs.take (min (n + 1) 65536) ++ bs.drop (min (n + 1) 65536) :=
          (List.take_append_drop _ bs).symm
        simp only [readSize, SL.add, okBind, readExact]
        rw [if_pos (by simp; omega)]
        simp only [okBind]
        have hda : (bs ++ rest).drop (min (n + 1) 65536) = bs.drop (min (n + 1) 65536) ++ rest := by
          rw [List.drop_append_of_le_length hr]
        have hta : (bs ++ rest).take (min (n + 1) 65536) = bs.take (min (n + 1) 65536) := by
          rw [List.take_append_of_le_length hr]
        rw [hta, hda, ih (n + 1 - min (n + 1) 65536) (by omega) (bs.drop (min (n + 1) 65536)) _
          (by simp [List.length_drop]; omega)]
        simp only [okBind]
        have hpos : q + min (n + 1) 65536 + (n + 1 - min (n + 1) 65536) = q + (n + 1) := by
          omega
        rw [List.take_append_drop, hpos]


/-- serde's variant dispatch: for an in-range discriminant, `deVariant`
decodes the fields of the selected variant. -/
theorem deVariant_eq (e : Endian) (vs : List (List Ty)) (idx rem : Nat) (s : DState)
    (hrem : rem < vs.length) :
    deVariant e vs idx rem s =
      deFields e (vs.getD rem []) s >>= fun r => .ok (.vEnum idx r.1, r.2) := by
  induction vs generalizing rem with
  | nil => simp at hrem
  | cons v0 rest ih =>
      cases rem with
      | zero =>
          simp only [deVariant, List.getD]
          cases hde : deFields e v0 s <;> simp [hde]
      | succ m =>
          simp only [deVariant]
          rw [ih m (by simpa using hrem)]
          rfl

/-- Width-1 padding is a no-op apart from the `pos %= 8` truncation. -/
theorem writePaddingOf_one (pos : Nat) : writePaddingOf 1 pos = ([], pos % 8) := by
  simp [writePaddingOf, Nat.mod_one]

/-- A one-byte write emits the low byte and truncates the cursor. -/
theorem serUInt_w1 (e : Endian) (n pos : Nat) :
    serUInt e .w1 n pos = ([n % 256], pos % 8 + 1) := by
  cases e <;> simp [serUInt, writePaddingOf_one, uintToBytes, toBytesLE, W.size]

/-- A one-byte read under an infinite budget pops the head byte. -/
theorem readU8_cons (b q : Nat) (bs : List Nat) :
    readU8 ⟨b :: bs, q, .infinite⟩ = .ok (b, ⟨bs, q + 1, .infinite⟩) := by
  have h1 : 1 ≤ (b :: bs).length := by simp
  simp [readU8, readSize, SL.add, readExact, h1, fromBytesLE]

/-! ## The round-trip induction

For every well-typed value, serializing from cursor `p` succeeds, and
deserializing the produced bytes from any cursor `q ≡ p (mod 8)` (under
an infinite budget, with arbitrary trailing input) returns the value and
consumes exactly those bytes.  The cursors only agree modulo 8 because
the serializer truncates `pos %= 8` on every padded write while the
deserializer's unpadded one-byte reads do not truncate. -/

mutual

theorem rtValue (e : Endian) (v : Value) (t : Ty) (h : typed v t = true) (p : Nat) :
    ∃ out p', serValue e v p = .ok (out, p') ∧
      ∀ q rest, q % 8 = p % 8 →
        ∃ q', deValue e t ⟨out ++ rest, q, .infinite⟩ = .ok (v, ⟨rest, q', .infinite⟩) ∧
          q' % 8 = p' % 8 := by
  cases v with
  | vBool b =>
      cases t <;> simp [typed] at h
      refine ⟨[if b then 1 else 0], p % 8 + 1, ?_, ?_⟩
      · cases b <;> simp [serValue, serUInt_w1]
      · intro q rest hq
        refine ⟨q + 1, ?_, by omega⟩
        cases b <;> simp [deValue, readU8_cons]
  | vU w n =>
      cases t with
      | tU w' =>
          simp only [typed, Bool.and_eq_true, decide_eq_true_eq] at h
          obtain ⟨hw, hn⟩ := h
          subst hw
          cases w with
          | w1 =>
              have hn' : n % 256 = n := Nat.mod_eq_of_lt (by simpa [W.size] using hn)
              refine ⟨[n % 256], p % 8 + 1, by simp [serValue, serUInt_w1], ?_⟩
              intro q rest hq
              refine ⟨q + 1, ?_, by omega⟩
              simp [deValue, readU8_cons, hn']
          | w2 =>
              refine ⟨(serUInt e .w2 n p).1, (serUInt e .w2 n p).2, rfl, ?_⟩
              intro q rest hq
              have hrw := readUInt_serUInt e .w2 n p q rest hn hq
              exact ⟨(serUInt e .w2 n p).2, by simp only [deValue, hrw, okBind], rfl⟩
          | w4 =>
              refine ⟨(serUInt e .w4 n p).1, (serUInt e .w4 n p).2, rfl, ?_⟩
              intro q rest hq
              have hrw := readUInt_serUInt e .w4 n p q rest hn hq
              exact ⟨(serUInt e .w4 n p).2, by simp only [deValue, hrw, okBind], rfl⟩
          | w8 =>
              refine ⟨(serUInt e .w8 n p).1, (serUInt e .w8 n p).2, rfl, ?_⟩
              intro q rest hq
              have hrw := readUInt_serUInt e .w8 n p q rest hn hq
              exact ⟨(serUInt e .w8 n p).2, by simp only [deValue, hrw, okBind], rfl⟩
      | tBool => simp [typed] at h
      | tI _ => simp [typed] at h
      | tStr => simp [typed] at h
      | tBytes => simp [typed] at h
      | tSeq _ => simp [typed] at h
      | tTuple _ => simp [typed] at h
      | tEnum _ => simp [typed] at h
  | vI w i =>
      cases t with
      | tI w' =>
          simp only [typed, Bool.and_eq_true, decide_eq_true_eq] at h
          obtain ⟨⟨hw, h1⟩, h2⟩ := h
          subst hw
          have hn : toTwos w i < 2 ^ (8 * w.size) := toTwos_lt w i
          have hft : fromTwos w (toTwos w i) = i := fromTwos_toTwos w i h1 h2
          cases w with
          | w1 =>
              have hn' : toTwos .w1 i % 256 = toTwos .w1 i :=
                Nat.mod_eq_of_lt (by simpa [W.size] using hn)
              refine ⟨[toTwos .w1 i % 256], p % 8 + 1, by simp [serValue, serUInt_w1], ?_⟩
              intro q rest hq
              refine ⟨q + 1, ?_, by omega⟩
              simp [deValue, readU8_cons, hn', hft]
          | w2 =>
              refine ⟨(serUInt e .w2 (toTwos .w2 i) p).1, (serUInt e .w2 (toTwos .w2 i) p).2,
                rfl, ?_⟩
              intro q rest hq
              have hrw := readUInt_serUInt e .w2 (toTwos .w2 i) p q rest hn hq
              exact ⟨(serUInt e .w2 (toTwos .w2 i) p).2,
                by simp only [deValue, hrw, okBind, hft], rfl⟩
          | w4 =>
              refine ⟨(serUInt e .w4 (toTwos .w4 i) p).1, (serUInt e .w4 (toTwos .w4 i) p).2,
                rfl, ?_⟩
              intro q rest hq
              have hrw := readUInt_serUInt e .w4 (toTwos .w4 i) p q rest hn hq
              exact ⟨(serUInt e .w4 (toTwos .w4 i) p).2,
                by simp only [deValue, hrw, okBind, hft], rfl⟩
          | w8 =>
              refine ⟨(serUInt e .w8 (toTwos .w8 i) p).1, (serUInt e .w8 (toTwos .w8 i) p).2,
                rfl, ?_⟩
              intro q rest hq
              have hrw := readUInt_serUInt e .w8 (toTwos .w8 i) p q rest hn hq
              exact ⟨(serUInt e .w8 (toTwos .w8 i) p).2,
                by simp only [deValue, hrw, okBind, hft], rfl⟩
      | tBool => simp [typed] at h
      | tU _ => simp [typed] at h
      | tStr => simp [typed] at h
      | tBytes => simp [typed] at h
      | tSeq _ => simp [typed] at h
      | tTuple _ => simp [typed] at h
      | tEnum _ => simp [typed] at h
  | vStr bs =>
      cases t <;> simp [typed] at h
      obtain ⟨hlen, hutf⟩ := h
      have hn : bs.length < 2 ^ (8 * W.size .w4) := by simpa [W.size] using hlen
      refine ⟨(serUInt e .w4 bs.length p).1 ++ bs,
        (serUInt e .w4 bs.length p).2 + bs.length, ?_, ?_⟩
      · simp only [serValue, writeUsizeAsU32,
          if_neg (by omega : ¬ bs.length > 2 ^ 32 - 1), okBind]
      · intro q rest hq
        refine ⟨(serUInt e .w4 bs.length p).2 + bs.length, ?_, rfl⟩
        have hrw := readUInt_serUInt e .w4 bs.length p q (bs ++ rest) hn hq
        simp only [W.size] at hrw
        simp only [deValue, readString, readVec, List.append_assoc, hrw, okBind,
          readChunks_infinite bs.length bs rest, hutf, if_true]
  | vBytes bs =>
      cases t <;> simp [typed] at h
      have hn : bs.length < 2 ^ (8 * W.size .w4) := by simpa [W.size] using h
      refine ⟨(serUInt e .w4 bs.length p).1 ++ bs,
        (serUInt e .w4 bs.length p).2 + bs.length, ?_, ?_⟩
      · simp only [serValue, writeUsizeAsU32,
          if_neg (by omega : ¬ bs.length > 2 ^ 32 - 1), okBind]
      · intro q rest hq
        refine ⟨(serUInt e .w4 bs.length p).2 + bs.length, ?_, rfl⟩
        have hrw := readUInt_serUInt e .w4 bs.length p q (bs ++ rest) hn hq
        simp only [W.size] at hrw
        simp only [deValue, readVec, List.append_assoc, hrw, okBind,
          readChunks_infinite bs.length bs rest]
  | vSeq es =>
      cases t with
      | tSeq t =>
          simp only [typed, Bool.and_eq_true, decide_eq_true_eq] at h
          obtain ⟨hlen, hes⟩ := h
          have hn : es.length < 2 ^ (8 * W.size .w4) := by simpa [W.size] using hlen
          obtain ⟨body, p2, hser, hde⟩ := rtSeq e es t hes (serUInt e .w4 es.length p).2
          refine ⟨(serUInt e .w4 es.length p).1 ++ body, p2, ?_, ?_⟩
          · simp only [serValue, writeUsizeAsU32,
              if_neg (by omega : ¬ es.length > 2 ^ 32 - 1), okBind, hser]
          · intro q rest hq
            obtain ⟨q2, hd2, hq2⟩ := hde (serUInt e .w4 es.length p).2 rest rfl
            refine ⟨q2, ?_, hq2⟩
            have hrw := readUInt_serUInt e .w4 es.length p q (body ++ rest) hn hq
            simp only [W.size] at hrw
            simp only [deValue, List.append_assoc, hrw, okBind, hd2]
      | tBool => simp [typed] at h
      | tU _ => simp [typed] at h
      | tI _ => simp [typed] at h
      | tStr => simp [typed] at h
      | tBytes => simp [typed] at h
      | tTuple _ => simp [typed] at h
      | tEnum _ => simp [typed] at h
  | vTuple fs =>
      cases t with
      | tTuple ts =>
          simp only [typed] at h
          obtain ⟨out, p', hser, hde⟩ := rtFields e fs ts h p
          refine ⟨out, p', by simp only [serValue, hser], ?_⟩
          intro q rest hq
          obtain ⟨q', hd, hq'⟩ := hde q rest hq
          exact ⟨q', by simp only [deValue, hd, okBind], hq'⟩
      | tBool => simp [typed] at h
      | tU _ => simp [typed] at h
      | tI _ => simp [typed] at h
      | tStr => simp [typed] at h
      | tBytes => simp [typed] at h
      | tSeq _ => simp [typed] at h
      | tEnum _ => simp [typed] at h
  | vEnum idx fs =>
      cases t with
      | tEnum vs =>
          simp only [typed, Bool.and_eq_true, decide_eq_true_eq] at h
          obtain ⟨⟨hidx, hidx32⟩, hfs⟩ := h
          have hn : idx < 2 ^ (8 * W.size .w4) := by simpa [W.size] using hidx32
          obtain ⟨body, p2, hser, hde⟩ := rtFields e fs (vs.getD idx [])
            hfs (serUInt e .w4 idx p).2
          refine ⟨(serUInt e .w4 idx p).1 ++ body, p2,
            by simp only [serValue, hser, okBind], ?_⟩
          intro q rest hq
          obtain ⟨q2, hd2, hq2⟩ := hde (serUInt e .w4 idx p).2 rest rfl
          refine ⟨q2, ?_, hq2⟩
          have hrw := readUInt_serUInt e .w4 idx p q (body ++ rest) hn hq
          simp only [W.size] at hrw
          simp only [deValue, List.append_assoc, hrw, okBind,
            deVariant_eq e vs idx idx _ hidx, hd2]
      | tBool => simp [typed] at h
      | tU _ => simp [typed] at h
      | tI _ => simp [typed] at h
      | tStr => simp [typed] at h
      | tBytes => simp [typed] at h
      | tSeq _ => simp [typed] at h
      | tTuple _ => simp [typed] at h
  | vNone => simp [typed] at h
  | vSome v => simp [typed] at h

theorem rtSeq (e : Endian) (es : List Value) (t : Ty) (h : typedSeq es t = true) (p : Nat) :
    ∃ out p', serList e es p = .ok (out, p') ∧
      ∀ q rest, q % 8 = p % 8 →
        ∃ q', deLoop (fun st => deValue e t st) es.length ⟨out ++ rest, q, .infinite⟩ =
            .ok (es, ⟨rest, q', .infinite⟩) ∧
          q' % 8 = p' % 8 := by
  cases es with
  | nil =>
      exact ⟨[], p, rfl, fun q rest hq => ⟨q, by simp [deLoop], hq⟩⟩
  | cons v vs =>
      simp only [typedSeq, Bool.and_eq_true] at h
      obtain ⟨hv, hvs⟩ := h
      obtain ⟨out1, p1, hser1, hde1⟩ := rtValue e v t hv p
      obtain ⟨out2, p2, hser2, hde2⟩ := rtSeq e vs t hvs p1
      refine ⟨out1 ++ out2, p2, by simp only [serList, hser1, hser2, okBind], ?_⟩
      intro q rest hq
      obtain ⟨q1, hd1, hq1⟩ := hde1 q (out2 ++ rest) hq
      obtain ⟨q2, hd2, hq2⟩ := hde2 q1 rest hq1
      refine ⟨q2, ?_, hq2⟩
      simp only [List.length_cons, deLoop, List.append_assoc, hd1, okBind, hd2]

theorem rtFields (e : Endian) (fs : List Value) (ts : List Ty)
    (h : typedFields fs ts = true) (p : Nat) :
    ∃ out p', serList e fs p = .ok (out, p') ∧
      ∀ q rest, q % 8 = p % 8 →
        ∃ q', deFields e ts ⟨out ++ rest, q, .infinite⟩ = .ok (fs, ⟨rest, q', .infinite⟩) ∧
          q' % 8 = p' % 8 := by
  cases fs with
  | nil =>
      cases ts with
      | nil => exact ⟨[], p, rfl, fun q rest hq => ⟨q, by simp [deFields], hq⟩⟩
      | cons t ts => simp [typedFields] at h
  | cons v vs =>
      cases ts with
      | nil => simp [typedFields] at h
      | cons t ts =>
          simp only [typedFields, Bool.and_eq_true] at h
          obtain ⟨hv, hvs⟩ := h
          obtain ⟨out1, p1, hser1, hde1⟩ := rtValue e v t hv p
          obtain ⟨out2, p2, hser2, hde2⟩ := rtFields e vs ts hvs p1
          refine ⟨out1 ++ out2, p2, by simp only [serList, hser1, hser2, okBind], ?_⟩
          intro q rest hq
          obtain ⟨q1, hd1, hq1⟩ := hde1 q (out2 ++ rest) hq
          obtain ⟨q2, hd2, hq2⟩ := hde2 q1 rest hq1
          refine ⟨q2, ?_, hq2⟩
          simp only [deFields, List.append_assoc, hd1, okBind, hd2]

end

/-! ## Size-checker lemmas -/

/-- `add_size` on the unlimited counter: position and total advance. -/
theorem szAddSize_counting (n p c : Nat) :
    szAddSize n ⟨p, .counting c⟩ = (⟨p + n, .counting (c + n)⟩, none) := rfl

/-- A successful step sequences into the next one. -/
theorem szSeq_ok (s : SzState) (f : SzState → SzState × Option ErrorKind) :
    szSeq (s, none) f = f s := rfl

/-- One primitive accounted by the unlimited checker: padding plus width. -/
theorem szUInt_counting (a p c : Nat) (ha : 0 < a) :
    szUInt a ⟨p, .counting c⟩ =
      (⟨p + ((a - p % a) % a + a), .counting (c + ((a - p % a) % a + a))⟩, none) := by
  by_cases h : p % a = 0
  · simp [szUInt, szPad, szSeq, szAddSize, SL.add, h, Nat.mod_self]
  · have hlt : p % a < a := Nat.mod_lt _ ha
    have hamt : (a - p % a) % a = a - p % a := Nat.mod_eq_of_lt (by omega)
    simp [szUInt, szPad, szSeq, szAddSize, SL.add, h, hamt, Nat.add_assoc]

mutual

/-- Values containing no string anywhere (the shapes on which the
serializer and the size checker agree byte for byte). -/
def noStr : Value → Bool
  | .vStr _ => false
  | .vSeq es => noStrList es
  | .vTuple fs => noStrList fs
  | .vEnum _ fs => noStrList fs
  | .vSome v => noStr v
  | _ => true

/-- `noStr` on all elements. -/
def noStrList : List Value → Bool
  | [] => true
  | v :: vs => noStr v && noStrList vs

end

/-- Byte count of one aligned primitive write. -/
theorem length_serUInt (e : Endian) (w : W) (n pos : Nat) :
    (serUInt e w n pos).1.length = (w.size - pos % 8 % w.size) % w.size + w.size := by
  have ha : 0 < w.size := by cases w <;> simp [W.size]
  simp [serUInt, writePaddingOf_eq w.size pos ha, length_uintToBytes]

/-- Cursor after one aligned primitive write. -/
theorem snd_serUInt (e : Endian) (w : W) (n pos : Nat) :
    (serUInt e w n pos).2 = pos % 8 + (w.size - pos % 8 % w.size) % w.size + w.size := by
  have ha : 0 < w.size := by cases w <;> simp [W.size]
  simp [serUInt, writePaddingOf_eq w.size pos ha]

mutual

/-- The unlimited `Counter` checker succeeds on every well-typed value,
advancing position and total by the same byte count. -/
theorem szCounting (v : Value) (t : Ty) (h : typed v t = true) (p c : Nat) :
    ∃ k, szValue v ⟨p, .counting c⟩ = (⟨p + k, .counting (c + k)⟩, none) := by
  cases v with
  | vBool b =>
      exact ⟨(1 - p % 1) % 1 + 1, by simp only [szValue]; exact szUInt_counting 1 p c one_pos⟩
  | vU w n =>
      refine ⟨(w.size - p % w.size) % w.size + w.size, ?_⟩
      simp only [szValue]
      exact szUInt_counting w.size p c (by cases w <;> simp [W.size])
  | vI w i =>
      refine ⟨(w.size - p % w.size) % w.size + w.size, ?_⟩
      simp only [szValue]
      exact szUInt_counting w.size p c (by cases w <;> simp [W.size])
  | vStr bs =>
      refine ⟨(4 - p % 4) % 4 + 4 + (bs.length + 1), ?_⟩
      simp only [szValue, szUInt_counting 4 p c (by norm_num), szSeq_ok,
        szAddSize_counting, Nat.add_assoc]
  | vBytes bs =>
      refine ⟨(4 - p % 4) % 4 + 4 + bs.length, ?_⟩
      simp only [szValue, szUInt_counting 4 p c (by norm_num), szSeq_ok,
        szAddSize_counting, Nat.add_assoc]
  | vSeq es =>
      cases t with
      | tSeq t =>
          simp only [typed, Bool.and_eq_true, decide_eq_true_eq] at h
          obtain ⟨hlen, hes⟩ := h
          obtain ⟨k2, h2⟩ := szCountingSeq es t hes (p + ((4 - p % 4) % 4 + 4))
            (c + ((4 - p % 4) % 4 + 4))
          refine ⟨(4 - p % 4) % 4 + 4 + k2, ?_⟩
          simp only [szValue, szUsizeAsU32, if_neg (by omega : ¬ es.length > 2 ^ 32 - 1),
            szUInt_counting 4 p c (by norm_num), szSeq_ok, h2, Nat.add_assoc]
      | tBool => simp [typed] at h
      | tU _ => simp [typed] at h
      | tI _ => simp [typed] at h
      | tStr => simp [typed] at h
      | tBytes => simp [typed] at h
      | tTuple _ => simp [typed] at h
      | tEnum _ => simp [typed] at h
  | vTuple fs =>
      cases t with
      | tTuple ts =>
          simp only [typed] at h
          obtain ⟨k, hk⟩ := szCountingFields fs ts h p c
          exact ⟨k, by simp only [szValue, hk]⟩
      | tBool => simp [typed] at h
      | tU _ => simp [typed] at h
      | tI _ => simp [typed] at h
      | tStr => simp [typed] at h
      | tBytes => simp [typed] at h
      | tSeq _ => simp [typed] at h
      | tEnum _ => simp [typed] at h
  | vEnum idx fs =>
      cases t with
      | tEnum vs =>
          simp only [typed, Bool.and_eq_true, decide_eq_true_eq] at h
          obtain ⟨⟨hidx, hidx32⟩, hfs⟩ := h
          obtain ⟨k2, h2⟩ := szCountingFields fs (vs.getD idx []) hfs
            (p + ((4 - p % 4) % 4 + 4)) (c + ((4 - p % 4) % 4 + 4))
          refine ⟨(4 - p % 4) % 4 + 4 + k2, ?_⟩
          simp only [szValue, szUInt_counting 4 p c (by norm_num), szSeq_ok, h2,
            Nat.add_assoc]
      | tBool => simp [typed] at h
      | tU _ => simp [typed] at h
      | tI _ => simp [typed] at h
      | tStr => simp [typed] at h
      | tBytes => simp [typed] at h
      | tSeq _ => simp [typed] at h
      | tTuple _ => simp [typed] at h
  | vNone => simp [typed] at h
  | vSome v => simp [typed] at h

theorem szCountingSeq (es : List Value) (t : Ty) (h : typedSeq es t = true) (p c : Nat) :
    ∃ k, szList es ⟨p, .counting c⟩ = (⟨p + k, .counting (c + k)⟩, none) := by
  cases es with
  | nil => exact ⟨0, by simp [szList]⟩
  | cons v vs =>
      simp only [typedSeq, Bool.and_eq_true] at h
      obtain ⟨hv, hvs⟩ := h
      obtain ⟨k1, h1⟩ := szCounting v t hv p c
      obtain ⟨k2, h2⟩ := szCountingSeq vs t hvs (p + k1) (c + k1)
      exact ⟨k1 + k2, by simp only [szList, h1, szSeq_ok, h2, Nat.add_assoc]⟩

theorem szCountingFields (fs : List Value) (ts : List Ty) (h : typedFields fs ts = true)
    (p c : Nat) :
    ∃ k, szList fs ⟨p, .counting c⟩ = (⟨p + k, .counting (c + k)⟩, none) := by
  cases fs with
  | nil =>
      cases ts with
      | nil => exact ⟨0, by simp [szList]⟩
      | cons t ts => simp [typedFields] at h
  | cons v vs =>
      cases ts with
      | nil => simp [typedFields] at h
      | cons t ts =>
          simp only [typedFields, Bool.and_eq_true] at h
          obtain ⟨hv, hvs⟩ := h
          obtain ⟨k1, h1⟩ := szCounting v t hv p c
          obtain ⟨k2, h2⟩ := szCountingFields vs ts hvs (p + k1) (c + k1)
          exact ⟨k1 + k2, by simp only [szList, h1, szSeq_ok, h2, Nat.add_assoc]⟩

end

/-- The size checker's primitive accounting matches the serializer's
primitive emission byte for byte (the checker's cursor is only congruent
mod 8 to the serializer's, since it is never truncated). -/
theorem serSzUInt (e : Endian) (w : W) (n p pσ c : Nat) (hp : pσ % 8 = p % 8) :
    szUInt w.size ⟨pσ, .counting c⟩ =
      (⟨pσ + (serUInt e w n p).1.length,
        .counting (c + (serUInt e w n p).1.length)⟩, none) ∧
    (pσ + (serUInt e w n p).1.length) % 8 = (serUInt e w n p).2 % 8 := by
  have ha : 0 < w.size := by cases w <;> simp [W.size]
  have hdvd : w.size ∣ 8 := by cases w <;> decide
  have hmod : pσ % w.size = p % 8 % w.size := by
    rw [← Nat.mod_mod_of_dvd pσ hdvd, hp]
  rw [length_serUInt, snd_serUInt, szUInt_counting w.size pσ c ha, hmod]
  exact ⟨rfl, by omega⟩

mutual

/-- On string-free well-typed values the serializer and the unlimited
size checker agree: the checker counts exactly the bytes the serializer
emits. -/
theorem serSz (e : Endian) (v : Value) (t : Ty) (h : typed v t = true)
    (hs : noStr v = true) (p : Nat) :
    ∃ out p', serValue e v p = .ok (out, p') ∧
      ∀ pσ c, pσ % 8 = p % 8 →
        szValue v ⟨pσ, .counting c⟩ =
          (⟨pσ + out.length, .counting (c + out.length)⟩, none) ∧
        (pσ + out.length) % 8 = p' % 8 := by
  cases v with
  | vBool b =>
      refine ⟨(serUInt e .w1 (if b then 1 else 0) p).1,
        (serUInt e .w1 (if b then 1 else 0) p).2, rfl, ?_⟩
      intro pσ c hp
      obtain ⟨h1, h2⟩ := serSzUInt e .w1 (if b then 1 else 0) p pσ c hp
      simp only [W.size] at h1 h2
      exact ⟨by simp only [szValue]; exact h1, h2⟩
  | vU w n =>
      refine ⟨(serUInt e w n p).1, (serUInt e w n p).2, rfl, ?_⟩
      intro pσ c hp
      obtain ⟨h1, h2⟩ := serSzUInt e w n p pσ c hp
      exact ⟨by simp only [szValue]; exact h1, h2⟩
  | vI w i =>
      refine ⟨(serUInt e w (toTwos w i) p).1, (serUInt e w (toTwos w i) p).2, rfl, ?_⟩
      intro pσ c hp
      obtain ⟨h1, h2⟩ := serSzUInt e w (toTwos w i) p pσ c hp
      exact ⟨by simp only [szValue]; exact h1, h2⟩
  | vStr bs => simp [noStr] at hs
  | vBytes bs =>
      cases t <;> simp [typed] at h
      refine ⟨(serUInt e .w4 bs.length p).1 ++ bs,
        (serUInt e .w4 bs.length p).2 + bs.length, ?_, ?_⟩
      · simp only [serValue, writeUsizeAsU32,
          if_neg (by omega : ¬ bs.length > 2 ^ 32 - 1), okBind]
      · intro pσ c hp
        obtain ⟨h1, h2⟩ := serSzUInt e .w4 bs.length p pσ c hp
        simp only [W.size] at h1 h2
        constructor
        · simp only [szValue, h1, szSeq_ok, szAddSize_counting, List.length_append,
            Nat.add_assoc]
        · simp only [List.length_append]
          omega
  | vSeq es =>
      cases t with
      | tSeq t =>
          simp only [typed, Bool.and_eq_true, decide_eq_true_eq] at h
          obtain ⟨hlen, hes⟩ := h
          simp only [noStr] at hs
          obtain ⟨out2, p2, hser2, hsz2⟩ :=
            serSzSeq e es t hes hs (serUInt e .w4 es.length p).2
          refine ⟨(serUInt e .w4 es.length p).1 ++ out2, p2, ?_, ?_⟩
          · simp only [serValue, writeUsizeAsU32,
              if_neg (by omega : ¬ es.length > 2 ^ 32 - 1), okBind, hser2]
          · intro pσ c hp
            obtain ⟨h1, h2⟩ := serSzUInt e .w4 es.length p pσ c hp
            simp only [W.size] at h1 h2
            obtain ⟨h3, h4⟩ :=
              hsz2 (pσ + (serUInt e .w4 es.length p).1.length)
                (c + (serUInt e .w4 es.length p).1.length) h2
            constructor
            · simp only [szValue, szUsizeAsU32,
                if_neg (by omega : ¬ es.length > 2 ^ 32 - 1), h1, szSeq_ok, h3,
                List.length_append, Nat.add_assoc]
            · simp only [List.length_append]
              omega
      | tBool => simp [typed] at h
      | tU _ => simp [typed] at h
      | tI _ => simp [typed] at h
      | tStr => simp [typed] at h
      | tBytes => simp [typed] at h
      | tTuple _ => simp [typed] at h
      | tEnum _ => simp [typed] at h
  | vTuple fs =>
      cases t with
      | tTuple ts =>
          simp only [typed] at h
          simp only [noStr] at hs
          obtain ⟨out, p', hser, hsz⟩ := serSzFields e fs ts h hs p
          refine ⟨out, p', by simp only [serValue, hser], ?_⟩
          intro pσ c hp
          obtain ⟨h1, h2⟩ := hsz pσ c hp
          exact ⟨by simp only [szValue, h1], h2⟩
      | tBool => simp [typed] at h
      | tU _ => simp [typed] at h
      | tI _ => simp [typed] at h
      | tStr => simp [typed] at h
      | tBytes => simp [typed] at h
      | tSeq _ => simp [typed] at h
      | tEnum _ => simp [typed] at h
  | vEnum idx fs =>
      cases t with
      | tEnum vs =>
          simp only [typed, Bool.and_eq_true, decide_eq_true_eq] at h
          obtain ⟨⟨hidx, hidx32⟩, hfs⟩ := h
          simp only [noStr] at hs
          obtain ⟨out2, p2, hser2, hsz2⟩ :=
            serSzFields e fs (vs.getD idx []) hfs hs (serUInt e .w4 idx p).2
          refine ⟨(serUInt e .w4 idx p).1 ++ out2, p2,
            by simp only [serValue, hser2, okBind], ?_⟩
          intro pσ c hp
          obtain ⟨h1, h2⟩ := serSzUInt e .w4 idx p pσ c hp
          simp only [W.size] at h1 h2
          obtain ⟨h3, h4⟩ :=
            hsz2 (pσ + (serUInt e .w4 idx p).1.length)
              (c + (serUInt e .w4 idx p).1.length) h2
          constructor
          · simp only [szValue, h1, szSeq_ok, h3, List.length_append, Nat.add_assoc]
          · simp only [List.length_append]
            omega
      | tBool => simp [typed] at h
      | tU _ => simp [typed] at h
      | tI _ => simp [typed] at h
      | tStr => simp [typed] at h
      | tBytes => simp [typed] at h
      | tSeq _ => simp [typed] at h
      | tTuple _ => simp [typed] at h
  | vNone => simp [typed] at h
  | vSome v => simp [typed] at h

theorem serSzSeq (e : Endian) (es : List Value) (t : Ty) (h : typedSeq es t = true)
    (hs : noStrList es = true) (p : Nat) :
    ∃ out p', serList e es p = .ok (out, p') ∧
      ∀ pσ c, pσ % 8 = p % 8 →
        szList es ⟨pσ, .counting c⟩ =
          (⟨pσ + out.length, .counting (c + out.length)⟩, none) ∧
        (pσ + out.length) % 8 = p' % 8 := by
  cases es with
  | nil =>
      exact ⟨[], p, rfl, fun pσ c hp => ⟨by simp [szList], by simpa using hp⟩⟩
  | cons v vs =>
      simp only [typedSeq, Bool.and_eq_true] at h
      simp only [noStrList, Bool.and_eq_true] at hs
      obtain ⟨out1, p1, hser1, hsz1⟩ := serSz e v t h.1 hs.1 p
      obtain ⟨out2, p2, hser2, hsz2⟩ := serSzSeq e vs t h.2 hs.2 p1
      refine ⟨out1 ++ out2, p2, by simp only [serList, hser1, hser2, okBind], ?_⟩
      intro pσ c hp
      obtain ⟨h1, h2⟩ := hsz1 pσ c hp
      obtain ⟨h3, h4⟩ := hsz2 (pσ + out1.length) (c + out1.length) h2
      constructor
      · simp only [szList, h1, szSeq_ok, h3, List.length_append, Nat.add_assoc]
      · simp only [List.length_append]
        omega

theorem serSzFields (e : Endian) (fs : List Value) (ts : List Ty)
    (h : typedFields fs ts = true) (hs : noStrList fs = true) (p : Nat) :
    ∃ out p', serList e fs p = .ok (out, p') ∧
      ∀ pσ c, pσ % 8 = p % 8 →
        szList fs ⟨pσ, .counting c⟩ =
          (⟨pσ + out.length, .counting (c + out.length)⟩, none) ∧
        (pσ + out.length) % 8 = p' % 8 := by
  cases fs with
  | nil =>
      cases ts with
      | nil => exact ⟨[], p, rfl, fun pσ c hp => ⟨by simp [szList], by simpa using hp⟩⟩
      | cons t ts => simp [typedFields] at h
  | cons v vs =>
      cases ts with
      | nil => simp [typedFields] at h
      | cons t ts =>
          simp only [typedFields, Bool.and_eq_true] at h
          simp only [noStrList, Bool.and_eq_true] at hs
          obtain ⟨out1, p1, hser1, hsz1⟩ := serSz e v t h.1 hs.1 p
          obtain ⟨out2, p2, hser2, hsz2⟩ := serSzFields e vs ts h.2 hs.2 p1
          refine ⟨out1 ++ out2, p2, by simp only [serList, hser1, hser2, okBind], ?_⟩
          intro pσ c hp
          obtain ⟨h1, h2⟩ := hsz1 pσ c hp
          obtain ⟨h3, h4⟩ := hsz2 (pσ + out1.length) (c + out1.length) h2
          constructor
          · simp only [szList, h1, szSeq_ok, h3, List.length_append, Nat.add_assoc]
          · simp only [List.length_append]
            omega

end

/-- Decomposition of one aligned primitive write into padding and bytes. -/
theorem serUInt_parts (e : Endian) (w : W) (n pos : Nat) :
    serUInt e w n pos =
      ((writePaddingOf w.size pos).1 ++ uintToBytes e w.size n,
        (writePaddingOf w.size pos).2 + w.size) := rfl

/-- Cursor after a successful read-side padding step. -/
theorem readPaddingOf_pos (a : Nat) (ha : 0 < a) (s s' : DState)
    (hr : readPaddingOf a s = .ok s') :
    s'.pos = s.pos % 8 + (a - s.pos % 8 % a) % a := by
  by_cases h : s.pos % 8 % a = 0
  · simp only [readPaddingOf, h, if_pos rfl] at hr
    cases hr
    simp [h, Nat.mod_self]
  · have hlt : s.pos % 8 % a < a := Nat.mod_lt _ ha
    have hamt : (a - s.pos % 8 % a) % a = a - s.pos % 8 % a :=
      Nat.mod_eq_of_lt (by omega)
    simp only [readPaddingOf, h, if_neg h, readSize] at hr
    rw [hamt]
    cases hadd : SL.add s.sl (a - s.pos % 8 % a) with
    | error e => simp [hadd] at hr
    | ok sl' =>
        simp only [hadd, okBind, readExact] at hr
        by_cases hle : a - s.pos % 8 % a ≤ s.input.length
        · rw [if_pos hle] at hr
          simp only [okBind] at hr
          cases hr
          rfl
        · rw [if_neg hle] at hr
          simp at hr

/-! ## The claims -/

/-- C1: for every value `v` of a supported shape (`typed v t`) and every
dialect `D` in {CdrBe, CdrLe, PlCdrBe, PlCdrLe}, deserializing the bytes
produced by serializing `v` under `D` yields `v` again:
`decode(encode(v, D)) = v`. -/
theorem c1_decode_encode_roundtrip (d : Dialect) (t : Ty) (v : Value)
    (h : typed v t = true) : roundTrip d t v = .ok v := by
  obtain ⟨out, p', hser, hde⟩ := rtValue d.endian v t h 0
  obtain ⟨q', hd, _⟩ := hde 0 [] rfl
  rw [List.append_nil] at hd
  cases d <;>
    · simp only [Dialect.endian] at hser hd
      simp [roundTrip, serialize, serializeBody, hser, deserialize, deserializeFrom,
        Dialect.id, Dialect.endian, readU8_cons, hd]

/-- C1 witness: a composite value (bool, u64, string, sequence of u16,
i32, enum variant with payload) round-trips under CdrLe. -/
theorem c1_witness :
    roundTrip .cdrLe
      (.tTuple [.tBool, .tU .w8, .tStr, .tSeq (.tU .w2), .tI .w4, .tEnum [[], [.tU .w1]]])
      (.vTuple [.vBool true, .vU .w8 1, .vStr [104, 105], .vSeq [.vU .w2 515, .vU .w2 2],
        .vI .w4 (-7), .vEnum 1 [.vU .w1 3]]) =
    .ok (.vTuple [.vBool true, .vU .w8 1, .vStr [104, 105], .vSeq [.vU .w2 515, .vU .w2 2],
      .vI .w4 (-7), .vEnum 1 [.vU .w1 3]]) :=
  c1_decode_encode_roundtrip .cdrLe _ _ (by decide)

/-- C2 counterexample: for `v = u8(0)` the encoded buffer has length 5
(envelope included) while `calc_serialized_data_size` returns 1 — the
size checker's total excludes the 4-byte envelope, so
`len(encode(v, D)) = serialized_size(v)` fails. -/
theorem c2_counterexample :
    serialize .cdrLe (.vU .w1 0) = .ok [0, 1, 0, 0, 0] ∧
    calcSerializedDataSize (.vU .w1 0) = 1 ∧
    ([0, 1, 0, 0, 0] : List Nat).length ≠ calcSerializedDataSize (.vU .w1 0) := by
  refine ⟨rfl, rfl, by decide⟩

/-- C2 (amended): for every string-free value of a supported shape, a
successful encode's length equals `calc_serialized_data_size` plus the
4-byte envelope the checker does not count (on values containing strings
the checker additionally counts one NUL byte per string that the
serializer does not emit; `calc_serialized_data_size` itself is a total
function — it never fails). -/
theorem c2_amended_size (d : Dialect) (t : Ty) (v : Value) (bytes : List Nat)
    (h : typed v t = true) (hs : noStr v = true)
    (henc : serialize d v = .ok bytes) :
    bytes.length = calcSerializedDataSize v + 4 := by
  obtain ⟨out, p', hser, hsz⟩ := serSz d.endian v t h hs 0
  obtain ⟨h1, _⟩ := hsz 0 0 rfl
  have hcalc : calcSerializedDataSize v = out.length := by
    simp [calcSerializedDataSize, h1, SL.total]
  simp only [serialize, serializeBody, hser, okBind] at henc
  have hb := Except.ok.inj henc
  subst hb
  simp [hcalc]

/-- C2 witness: `(u8, u16)` under CdrLe encodes to 8 bytes and the data
size is 4. -/
theorem c2_witness :
    ([0, 1, 0, 0, 1, 0, 3, 2] : List Nat).length =
      calcSerializedDataSize (.vTuple [.vU .w1 1, .vU .w2 515]) + 4 :=
  c2_amended_size .cdrLe (.tTuple [.tU .w1, .tU .w2]) _ _ (by decide) (by decide) rfl

/-- C3: for every primitive width W ∈ {1,2,4,8}, after the padding step
the cursor is W-aligned — on the write side (`write_padding_of`) and on
the read side (`read_padding_of`). -/
theorem c3_alignment (w pos : Nat) (s s' : DState)
    (hw : w = 1 ∨ w = 2 ∨ w = 4 ∨ w = 8)
    (hr : readPaddingOf w s = .ok s') :
    (writePaddingOf w pos).2 % w = 0 ∧ s'.pos % w = 0 := by
  rcases hw with rfl | rfl | rfl | rfl <;>
    exact ⟨by rw [writePaddingOf_eq _ pos (by norm_num)]; omega,
      by rw [readPaddingOf_pos _ (by norm_num) s s' hr]; omega⟩

/-- C3 witness: width 2 at cursor 5 — one padding byte is written or
skipped and the cursor lands 2-aligned. -/
theorem c3_witness :
    (writePaddingOf 2 5).2 % 2 = 0 ∧ (⟨[7], 6, .infinite⟩ : DState).pos % 2 = 0 :=
  c3_alignment 2 5 ⟨[0, 7], 5, .infinite⟩ ⟨[7], 6, .infinite⟩ (by norm_num) rfl

/-- C7: `Infinite::add` always succeeds; `Bounded(r)::add(n)` succeeds
exactly when `r ≥ n` decrementing the budget to `r - n`, and otherwise
fails with `SizeLimit`. -/
theorem c7_size_limit_add (r n : Nat) :
    SL.add .infinite n = .ok .infinite ∧
    ((SL.bounded r).add n = .ok (.bounded (r - n)) ↔ n ≤ r) ∧
    ((SL.bounded r).add n = .error .sizeLimit ↔ r < n) := by
  refine ⟨rfl, ⟨?_, ?_⟩, ⟨?_, ?_⟩⟩
  · intro hEq
    by_contra hn
    simp [SL.add, if_neg (by omega : ¬ r ≥ n)] at hEq
  · intro hn
    simp [SL.add, if_pos (by omega : r ≥ n)]
  · intro hEq
    by_contra hn
    simp [SL.add, if_pos (by omega : r ≥ n)] at hEq
  · intro hn
    simp [SL.add, if_neg (by omega : ¬ r ≥ n)]

/-- C8 counterexample: the cursor does decrease without a reset: the
padding step at width 8 maps cursor 8 to cursor 0 (`pos %= 8`), and that
state is reached inside an ordinary encode — serializing `(u64, u64)`
emits 16 bytes yet finishes with `pos = 8`. -/
theorem c8_counterexample :
    writePaddingOf 8 8 = ([], 0) ∧
    serValue .le (.vTuple [.vU .w8 0, .vU .w8 1]) 0 =
      .ok ([0, 0, 0, 0, 0, 0, 0, 0, 1, 0, 0, 0, 0, 0, 0, 0], 8) :=
  ⟨rfl, rfl⟩

/-- C8 (amended): `pos` never decreases except at the single explicit
reset after the envelope and at the `pos %= 8` truncation that opens
every padding step; the truncation preserves `pos` modulo 8 (the only
alignment-relevant part), as the exact characterizations of
`write_padding_of` and `read_padding_of` show. -/
theorem c8_amended_truncation (w pos : Nat) (s s' : DState)
    (hw : w = 1 ∨ w = 2 ∨ w = 4 ∨ w = 8)
    (hr : readPaddingOf w s = .ok s') :
    writePaddingOf w pos =
      (List.replicate ((w - pos % 8 % w) % w) 0, pos % 8 + (w - pos % 8 % w) % w) ∧
    (writePaddingOf w pos).2 % 8 = (pos + (writePaddingOf w pos).1.length) % 8 ∧
    s'.pos = s.pos % 8 + (w - s.pos % 8 % w) % w := by
  have ha : 0 < w := by rcases hw with rfl | rfl | rfl | rfl <;> norm_num
  refine ⟨writePaddingOf_eq w pos ha, ?_, readPaddingOf_pos w ha s s' hr⟩
  rw [writePaddingOf_eq w pos ha]
  simp only [List.length_replicate]
  omega

/-- C8 witness: width 8 at cursor 8 on both sides. -/
theorem c8_witness :
    writePaddingOf 8 8 =
      (List.replicate ((8 - 8 % 8 % 8) % 8) 0, 8 % 8 + (8 - 8 % 8 % 8) % 8) ∧
    (writePaddingOf 8 8).2 % 8 = (8 + (writePaddingOf 8 8).1.length) % 8 ∧
    (⟨[9], 0, .infinite⟩ : DState).pos =
      (⟨[9], 8, .infinite⟩ : DState).pos % 8 + (8 - (⟨[9], 8, .infinite⟩ : DState).pos % 8 % 8) % 8 :=
  c8_amended_truncation 8 8 ⟨[9], 8, .infinite⟩ ⟨[9], 0, .infinite⟩ (by norm_num) rfl

/-- C9 counterexample: decoding the boolean byte `0x02` fails with the
`Message` error the source raises, not with `InvalidBoolEncoding(2)`
(that `ErrorKind` exists in `src/error.rs` but `deserialize_bool` does
not use it). -/
theorem c9_counterexample :
    deserialize .tBool [0, 0, 0, 0, 2] =
      .error (.message "invalid u8 when decoding bool") ∧
    ErrorKind.message "invalid u8 when decoding bool" ≠ .invalidBoolEncoding 2 :=
  ⟨rfl, by decide⟩

/-- C9 (amended): a boolean is decoded from one byte; `0x01` yields
`true`, `0x00` yields `false`, and every other byte fails — with the
`Message "invalid u8 when decoding bool"` error rather than
`InvalidBoolEncoding(b)`. -/
theorem c9_amended_bool_decode (e : Endian) (b q : Nat) (bs : List Nat) :
    deValue e .tBool ⟨b :: bs, q, .infinite⟩ =
      (if b = 1 then .ok (.vBool true, ⟨bs, q + 1, .infinite⟩)
       else if b = 0 then .ok (.vBool false, ⟨bs, q + 1, .infinite⟩)
       else .error (.message "invalid u8 when decoding bool")) := by
  simp only [deValue, readU8_cons, okBind]

/-- C10: the size checker and the serializer disagree on optional values:
`serialize_none`/`serialize_some` both fail with `TypeNotSupported`,
while the checker counts a `None` as zero bytes and a `Some` as one byte
followed by its payload's accounting, and succeeds on any well-typed
payload — so pre-flight sizing succeeds for values whose serialization
always fails. -/
theorem c10_option_divergence (e : Endian) (v : Value) (t : Ty) (p pos c : Nat)
    (h : typed v t = true) :
    serValue e .vNone p = .error .typeNotSupported ∧
    serValue e (.vSome v) p = .error .typeNotSupported ∧
    szValue .vNone ⟨pos, .counting c⟩ = (⟨pos, .counting c⟩, none) ∧
    szValue (.vSome v) ⟨pos, .counting c⟩ = szValue v ⟨pos + 1, .counting (c + 1)⟩ ∧
    (szValue (.vSome v) ⟨pos, .counting c⟩).2 = none := by
  have hone : szValue (.vSome v) ⟨pos, .counting c⟩ = szValue v ⟨pos + 1, .counting (c + 1)⟩ := by
    simp only [szValue]
    rw [szUInt_counting 1 pos c one_pos]
    simp [Nat.mod_one, szSeq_ok]
  refine ⟨rfl, rfl, rfl, hone, ?_⟩
  obtain ⟨k, hk⟩ := szCounting v t h (pos + 1) (c + 1)
  rw [hone, hk]

/-- C10 witness: payload `u32(7)`. -/
theorem c10_witness :
    serValue .le .vNone 0 = .error .typeNotSupported ∧
    serValue .le (.vSome (.vU .w4 7)) 0 = .error .typeNotSupported ∧
    szValue .vNone ⟨0, .counting 0⟩ = (⟨0, .counting 0⟩, none) ∧
    szValue (.vSome (.vU .w4 7)) ⟨0, .counting 0⟩ =
      szValue (.vU .w4 7) ⟨1, .counting 1⟩ ∧
    (szValue (.vSome (.vU .w4 7)) ⟨0, .counting 0⟩).2 = none :=
  c10_option_divergence .le (.vU .w4 7) (.tU .w4) 0 0 0 (by decide)

/-- C4 counterexample: `encode(string("a"), CdrBe)` produces a payload
whose length field is 1 (the byte length, NUL not counted) followed by
`0x61` with no terminator — not the claimed length field 2 with a
trailing `0x00`. -/
theorem c4_counterexample :
    serialize .cdrBe (.vStr [97]) = .ok [0, 0, 0, 0, 0, 0, 0, 1, 97] ∧
    ([0, 0, 0, 0, 0, 0, 0, 1, 97] : List Nat) ≠ [0, 0, 0, 0, 0, 0, 0, 2, 97, 0] :=
  ⟨rfl, by decide⟩

/-- C4 (amended): the serializer emits a 4-byte length L equal to the
byte length of the string (the NUL is not counted), then the UTF-8 bytes,
and no terminator; on decode exactly L bytes are read and returned after
UTF-8 validation, with nothing stripped (shown on the claim's example:
decoding the actual encoding of "a" returns "a"). -/
theorem c4_amended_string_layout (e : Endian) (bs : List Nat) (pos : Nat)
    (h : bs.length < 2 ^ 32) :
    serValue e (.vStr bs) pos =
      .ok ((writePaddingOf 4 pos).1 ++ (uintToBytes e 4 bs.length ++ bs),
        ((writePaddingOf 4 pos).2 + 4) + bs.length) ∧
    deserialize .tStr [0, 0, 0, 0, 0, 0, 0, 1, 97] = .ok (.vStr [97]) := by
  constructor
  · simp only [serValue, writeUsizeAsU32, if_neg (by omega : ¬ bs.length > 2 ^ 32 - 1),
      okBind, serUInt_parts, W.size, List.append_assoc]
  · simp [deserialize, deserializeFrom, readU8_cons, deValue, readString, readVec,
      readUInt, readPaddingOf, readSize, SL.add, readExact, uintFromBytes, fromBytesLE,
      readChunks]
    rfl

/-- C4 witness: the layout at `bs = [0x61]`, `pos = 0` under big-endian. -/
theorem c4_witness :
    serValue .be (.vStr [97]) 0 =
      .ok ((writePaddingOf 4 0).1 ++ (uintToBytes .be 4 ([97] : List Nat).length ++ [97]),
        ((writePaddingOf 4 0).2 + 4) + ([97] : List Nat).length) ∧
    deserialize .tStr [0, 0, 0, 0, 0, 0, 0, 1, 97] = .ok (.vStr [97]) :=
  c4_amended_string_layout .be [97] 0 (by decide)

/-- C5 counterexample: the top-level decode never inspects envelope
bytes 0, 2 and 3 — a header `07 00 09 09` (byte 0 ≠ 0, options ≠ 0)
decodes successfully instead of failing with `InvalidEncapsulation`. -/
theorem c5_counterexample :
    deserialize (.tU .w1) [7, 0, 9, 9, 42] = .ok (.vU .w1 42) ∧
    (Except.ok (Value.vU .w1 42) : Except ErrorKind Value) ≠
      .error .invalidEncapsulation :=
  ⟨rfl, by simp⟩

/-- C5 (amended): the top-level decode reads exactly 4 envelope bytes,
ignores bytes 0, 2 and 3, resets the cursor, and dispatches on byte 1
(0 → big-endian CdrBe, 1 → little-endian CdrLe, 2 → big-endian PlCdrBe,
3 → little-endian PlCdrLe); every byte-1 value above 3 fails with the
`Message "unknown encapsulation"` error the source raises — not with
`InvalidEncapsulation`, which `src/de.rs` never constructs. -/
theorem c5_amended_dispatch (t : Ty) (b0 b1 b2 b3 : Nat) (rest : List Nat)
    (h4 : 4 ≤ b1) :
    (deserializeFrom t (b0 :: 0 :: b2 :: b3 :: rest) .infinite =
      (deValue .be t ⟨rest, 0, .infinite⟩).map Prod.fst) ∧
    (deserializeFrom t (b0 :: 1 :: b2 :: b3 :: rest) .infinite =
      (deValue .le t ⟨rest, 0, .infinite⟩).map Prod.fst) ∧
    (deserializeFrom t (b0 :: 2 :: b2 :: b3 :: rest) .infinite =
      (deValue .be t ⟨rest, 0, .infinite⟩).map Prod.fst) ∧
    (deserializeFrom t (b0 :: 3 :: b2 :: b3 :: rest) .infinite =
      (deValue .le t ⟨rest, 0, .infinite⟩).map Prod.fst) ∧
    deserializeFrom t (b0 :: b1 :: b2 :: b3 :: rest) .infinite =
      .error (.message "unknown encapsulation") := by
  refine ⟨?_, ?_, ?_, ?_, ?_⟩
  · simp [deserializeFrom, readU8_cons]
  · simp [deserializeFrom, readU8_cons]
  · simp [deserializeFrom, readU8_cons]
  · simp [deserializeFrom, readU8_cons]
  · simp only [deserializeFrom, readU8_cons, okBind]
    rw [if_neg (by omega : ¬ b1 = 0), if_neg (by omega : ¬ b1 = 1),
      if_neg (by omega : ¬ b1 = 2), if_neg (by omega : ¬ b1 = 3)]

/-- C5 witness: the dispatch equations at byte-1 values 0-3 with junk in
bytes 0, 2, 3, and the failure at byte-1 value 4. -/
theorem c5_witness :
    (deserializeFrom (.tU .w1) (9 :: 0 :: 9 :: 9 :: [5]) .infinite =
      (deValue .be (.tU .w1) ⟨[5], 0, .infinite⟩).map Prod.fst) ∧
    (deserializeFrom (.tU .w1) (9 :: 1 :: 9 :: 9 :: [5]) .infinite =
      (deValue .le (.tU .w1) ⟨[5], 0, .infinite⟩).map Prod.fst) ∧
    (deserializeFrom (.tU .w1) (9 :: 2 :: 9 :: 9 :: [5]) .infinite =
      (deValue .be (.tU .w1) ⟨[5], 0, .infinite⟩).map Prod.fst) ∧
    (deserializeFrom (.tU .w1) (9 :: 3 :: 9 :: 9 :: [5]) .infinite =
      (deValue .le (.tU .w1) ⟨[5], 0, .infinite⟩).map Prod.fst) ∧
    deserializeFrom (.tU .w1) (9 :: 4 :: 9 :: 9 :: [5]) .infinite =
      .error (.message "unknown encapsulation") :=
  c5_amended_dispatch (.tU .w1) 9 4 9 9 [5] (by norm_num)

/-- C6 counterexample: `serialize_into` with budget `Bounded(8)` on the
empty string fails with `SizeLimit` even though a successful encode
streams exactly 8 bytes (envelope + length field) — the budget is spent
by the pre-flight size check (which counts a NUL byte the serializer
never writes), not by the bytes that move through the stream, so the
add-per-streamed-byte accounting the claim describes does not happen on
the serialization side. -/
theorem c6_counterexample :
    serializeInto .cdrLe (.vStr []) (.bounded 8) = .error .sizeLimit ∧
    serialize .cdrLe (.vStr []) = .ok [0, 1, 0, 0, 0, 0, 0, 0] :=
  ⟨rfl, rfl⟩

/-- C6 (amended): on serialization the `Serializer` never consults the
policy — a bounded run is exactly the pre-flight size check followed by
the budget-blind streaming of `serialize`, and an infinite run is that
streaming alone; on deserialization every byte is charged, including
padding: the read-side padding step charges its padding bytes against a
bounded budget before reading them, failing with `SizeLimit` when the
budget is short. -/
theorem c6_amended_budget (d : Dialect) (v : Value) (m a : Nat) (s : DState) (r : Nat)
    (hw : a = 1 ∨ a = 2 ∨ a = 4 ∨ a = 8) (hsl : s.sl = .bounded r) :
    (serializeInto d v (.bounded m) =
      calcSerializedSizeBounded v m >>= fun _ => serialize d v) ∧
    (serializeInto d v .infinite = serialize d v) ∧
    (readPaddingOf a s =
      if (a - s.pos % 8 % a) % a = 0 then .ok ⟨s.input, s.pos % 8, s.sl⟩
      else if (a - s.pos % 8 % a) % a ≤ r then
        (if (a - s.pos % 8 % a) % a ≤ s.input.length then
          .ok ⟨s.input.drop ((a - s.pos % 8 % a) % a), s.pos % 8 + (a - s.pos % 8 % a) % a,
            .bounded (r - (a - s.pos % 8 % a) % a)⟩
         else .error .ioError)
      else .error .sizeLimit) := by
  have ha : 0 < a := by rcases hw with rfl | rfl | rfl | rfl <;> norm_num
  refine ⟨rfl, rfl, ?_⟩
  by_cases hn : s.pos % 8 % a = 0
  · have hamt : (a - s.pos % 8 % a) % a = 0 := by rw [hn]; simp
    simp [readPaddingOf, hn, hamt]
  · have hlt : s.pos % 8 % a < a := Nat.mod_lt _ ha
    have hamt : (a - s.pos % 8 % a) % a = a - s.pos % 8 % a :=
      Nat.mod_eq_of_lt (by omega)
    have hne : ¬ (a - s.pos % 8 % a) % a = 0 := by omega
    rw [if_neg hne]
    simp only [readPaddingOf, hn, if_neg hn, readSize, hsl, SL.add, hamt]
    by_cases hbud : a - s.pos % 8 % a ≤ r
    · rw [if_pos (by omega : r ≥ a - s.pos % 8 % a), if_pos hbud]
      simp only [okBind, readExact]
      by_cases hin : a - s.pos % 8 % a ≤ s.input.length
      · rw [if_pos hin, if_pos hin]
        simp
      · rw [if_neg hin, if_neg hin]
        simp
    · rw [if_neg (by omega : ¬ r ≥ a - s.pos % 8 % a), if_neg hbud]
      simp

/-- C6 witness: width-4 padding at cursor 1 against budget `Bounded(7)`. -/
theorem c6_witness :
    (serializeInto .cdrLe (.vU .w1 0) (.bounded 5) =
      calcSerializedSizeBounded (.vU .w1 0) 5 >>= fun _ => serialize .cdrLe (.vU .w1 0)) ∧
    (serializeInto .cdrLe (.vU .w1 0) .infinite = serialize .cdrLe (.vU .w1 0)) ∧
    (readPaddingOf 4 ⟨[0, 0, 0, 9], 1, .bounded 7⟩ =
      if (4 - 1 % 8 % 4) % 4 = 0 then .ok ⟨[0, 0, 0, 9], 1 % 8, .bounded 7⟩
      else if (4 - 1 % 8 % 4) % 4 ≤ 7 then
        (if (4 - 1 % 8 % 4) % 4 ≤ ([0, 0, 0, 9] : List Nat).length then
          .ok ⟨([0, 0, 0, 9] : List Nat).drop ((4 - 1 % 8 % 4) % 4),
            1 % 8 + (4 - 1 % 8 % 4) % 4, .bounded (7 - (4 - 1 % 8 % 4) % 4)⟩
         else .error .ioError)
      else .error .sizeLimit) :=
  c6_amended_budget .cdrLe (.vU .w1 0) 5 4 ⟨[0, 0, 0, 9], 1, .bounded 7⟩ 7
    (by norm_num) rfl

end Cdr
